import Mathlib

/-!
Verification development for the AsGuJu pasal extraction-and-verification
pipeline (`server.js`).

The extractor `extractPasalReferences` and the verifier `verifyPasalOnline`
are modelled over `List Char`, mirroring the JavaScript source:

* the first regex pass
  `Pasal\s+([0-9]{1,4})(?:\s*(?:ayat\s*\(?[0-9a-zA-Z\)\-]+)?)*\s*(KUHP|KUHAP|Kitab Undang-Undang Hukum Pidana|)/gi`
  is modelled by `tryMatch1` (an anchored match) iterated by `scan1F`
  (the `regex.exec` loop: leftmost match, resume after the matched text);
* the second pass `Pasal\s+([0-9]{1,4})/gi` is modelled by `matchHead` /
  `scan2F`;
* case-insensitive matching uses ASCII lowering `lowc`, which is what the
  `i` flag does on the ASCII patterns involved;
* the shared `matches` array with its `includes` de-duplication is
  `dedupAppend`.

`\s` is modelled by `isJsWs` over the ECMAScript white-space characters;
the inputs exercised here only use plain spaces.
-/

namespace AsGuJu

/-- ASCII lowering, the effect of the regex `i` flag / `toLowerCase()` on
the ASCII text handled by this program. -/
def lowc (c : Char) : Char :=
  if 65 ≤ c.toNat && c.toNat ≤ 90 then Char.ofNat (c.toNat + 32) else c

/-- ECMAScript `\s` (the characters relevant to this development). -/
def isJsWs (c : Char) : Bool :=
  c = ' ' || c = '\t' || c = '\n' || c = '\r' || c = '\x0b' || c = '\x0c' || c = ' '

/-- `[0-9]`. -/
def isDigitC (c : Char) : Bool :=
  48 ≤ c.toNat && c.toNat ≤ 57

/-- The character class `[0-9a-zA-Z\)\-]` of the `ayat` sub-clause. -/
def isAyatClass (c : Char) : Bool :=
  isDigitC c || (97 ≤ c.toNat && c.toNat ≤ 122) || (65 ≤ c.toNat && c.toNat ≤ 90) ||
    c = ')' || c = '-'

/-- Case-insensitively strip the (lower-case) pattern `pat` from the front
of `l`; `some rest` on success. -/
def stripCI : List Char → List Char → Option (List Char)
  | [], l => some l
  | _ :: _, [] => none
  | p :: ps, c :: cs => if lowc c = p then stripCI ps cs else none

/-- Like `stripCI` but also returns the matched original characters
(the regex keeps the original case in its capture). -/
def stripCIKeep : List Char → List Char → Option (List Char × List Char)
  | [], l => some ([], l)
  | _ :: _, [] => none
  | p :: ps, c :: cs =>
    if lowc c = p then
      match stripCIKeep ps cs with
      | some (m, rest) => some (c :: m, rest)
      | none => none
    else none

def pasalPat : List Char := "pasal".data

def kuhpPat : List Char := "kuhp".data

/-- Anchored match of `Pasal\s+([0-9]{1,4})` (case-insensitive, greedy,
digit count capped at 4): returns the captured digits and the rest.
This is exactly the second regex of `extractPasalReferences`, and the
common prefix of the first one. -/
def matchHead (l : List Char) : Option (List Char × List Char) :=
  match stripCI pasalPat l with
  | none => none
  | some r1 =>
    match r1.takeWhile isJsWs with
    | [] => none
    | _ :: _ =>
      let r2 := r1.dropWhile isJsWs
      let ds := (r2.takeWhile isDigitC).take 4
      match ds with
      | [] => none
      | _ :: _ => some (ds, r2.drop ds.length)

/-- The optional `\(?` of the ayat sub-clause. -/
def skipParen : List Char → List Char
  | '(' :: tl => tl
  | l => l

/-- One `ayat\s*\(?[0-9a-zA-Z\)\-]+` attempt (the optional body of one
iteration of the ayat star). -/
def ayatInner (l : List Char) : Option (List Char) :=
  match stripCI "ayat".data l with
  | none => none
  | some r1 =>
    let r3 := skipParen (r1.dropWhile isJsWs)
    match r3.takeWhile isAyatClass with
    | [] => none
    | cls => some (r3.drop cls.length)

/-- The star `(?:\s*(?:ayat…)?)*` followed by the `\s*` before the code
token: ECMAScript stops a repetition as soon as an iteration matches the
empty string, so the loop consumes white-space-separated `ayat` clauses
and stops (with the trailing white space consumed) once no further clause
matches. -/
def ayatStarF : Nat → List Char → List Char
  | 0, l => l
  | fuel + 1, l =>
    let r := l.dropWhile isJsWs
    match ayatInner r with
    | some r2 => ayatStarF fuel r2
    | none => r

/-- The code-token alternation `(KUHP|KUHAP|Kitab Undang-Undang Hukum Pidana|)`,
tried in source order; `none` stands for the empty alternative. -/
def stripSuffixTok (l : List Char) : Option (List Char × List Char) :=
  match stripCIKeep kuhpPat l with
  | some r => some r
  | none =>
    match stripCIKeep "kuhap".data l with
    | some r => some r
    | none => stripCIKeep "kitab undang-undang hukum pidana".data l

/-- Anchored match of the full first-pass regex: captured digits, captured
code token (possibly empty), and the rest of the input after the match. -/
def tryMatch1 (l : List Char) : Option ((List Char × List Char) × List Char) :=
  match matchHead l with
  | none => none
  | some (num, r) =>
    let r2 := ayatStarF (r.length + 1) r
    match stripSuffixTok r2 with
    | some (sfx, rest) => some ((num, sfx), rest)
    | none => some ((num, []), r2)

/-- JS-style `trim()` (both ends, white space per `isJsWs`). -/
def trimL (l : List Char) : List Char :=
  ((l.dropWhile isJsWs).reverse.dropWhile isJsWs).reverse

/-- Key built by the first pass:
`` `Pasal ${num} ${suffix}`.trim() `` with the empty suffix defaulted to
`KUHP` (`suffix = m[2] && m[2].trim() !== '' ? m[2].trim() : 'KUHP'`). -/
def mkKey1 (num sfx : List Char) : List Char :=
  let s := trimL sfx
  let s2 := if s.isEmpty then "KUHP".data else s
  trimL ("Pasal ".data ++ num ++ ' ' :: s2)

/-- Key built by the second pass: `` `Pasal ${num} KUHP` ``. -/
def mkKey2 (num : List Char) : List Char :=
  "Pasal ".data ++ num ++ " KUHP".data

/-- The `regex.exec` scan loop for the first pass: leftmost match, then
resume right after the matched text (matches never have length zero). -/
def scan1F : Nat → List Char → List (List Char × List Char)
  | 0, _ => []
  | _ + 1, [] => []
  | fuel + 1, c :: tl =>
    match tryMatch1 (c :: tl) with
    | some (ns, rest) => ns :: scan1F fuel rest
    | none => scan1F fuel tl

/-- The `regex2.exec` scan loop for the second pass. -/
def scan2F : Nat → List Char → List (List Char)
  | 0, _ => []
  | _ + 1, [] => []
  | fuel + 1, c :: tl =>
    match matchHead (c :: tl) with
    | some (num, rest) => num :: scan2F fuel rest
    | none => scan2F fuel tl

def scan1 (l : List Char) : List (List Char × List Char) := scan1F (l.length + 1) l

def scan2 (l : List Char) : List (List Char) := scan2F (l.length + 1) l

/-- Keys produced by the first pass, in match order (before dedup). -/
def keys1 (l : List Char) : List (List Char) :=
  (scan1 l).map fun ns => mkKey1 ns.1 ns.2

/-- Keys produced by the second pass, in match order (before dedup). -/
def keys2 (l : List Char) : List (List Char) :=
  (scan2 l).map mkKey2

/-- The `if (!matches.includes(key)) matches.push(key)` accumulation,
shared by both passes. -/
def dedupAppend (acc : List (List Char)) : List (List Char) → List (List Char)
  | [] => acc
  | k :: ks => dedupAppend (if k ∈ acc then acc else acc ++ [k]) ks

/-- `extractPasalReferences`, over `List Char`. -/
def extractL (l : List Char) : List (List Char) :=
  dedupAppend (dedupAppend [] (keys1 l)) (keys2 l)

/-- `extractPasalReferences` (string boundary; `!text` on a string means
"empty", and the empty text scans to the empty list). -/
def extractPasalReferences (text : String) : List String :=
  (extractL text.data).map fun l => String.mk l

/-! ## The verifier `verifyPasalOnline`

One verification issues outbound GET probes, in order: the BPK search once
per query variant, then (if unverified) the Mahkamah Agung search, then
(if still unverified) the Google fallback.  A probe is identified by its
full request URL; the network is an oracle `Env` mapping a probe to
`some body` (the response text, after the `r.data || ''` normalisation)
or `none` (any axios failure: timeout, DNS error, non-2xx — all caught by
the surrounding `try`/`catch` and treated as no-match).  Besides the
`VerifyResult` the model returns the list of probes actually issued, so
that "provider X was never contacted" is expressible. -/

/-- `%XY` percent-escape of one byte. -/
def pctByte (b : Nat) : List Char :=
  let hexDigit : Nat → Char := fun n =>
    if n < 10 then Char.ofNat (48 + n) else Char.ofNat (55 + n)
  ['%', hexDigit (b / 16), hexDigit (b % 16)]

/-- UTF-8 bytes of one character. -/
def utf8Bytes (c : Char) : List Nat :=
  let n := c.toNat
  if n < 128 then [n]
  else if n < 2048 then [192 + n / 64, 128 + n % 64]
  else if n < 65536 then [224 + n / 4096, 128 + n / 64 % 64, 128 + n % 64]
  else [240 + n / 262144, 128 + n / 4096 % 64, 128 + n / 64 % 64, 128 + n % 64]

/-- `encodeURIComponent`: unreserved characters kept, everything else
percent-encoded byte-wise. -/
def encodeURIComponent (l : List Char) : List Char :=
  l.flatMap fun c =>
    if isDigitC c || (97 ≤ c.toNat && c.toNat ≤ 122) || (65 ≤ c.toNat && c.toNat ≤ 90) ||
        c = '-' || c = '_' || c = '.' || c = '!' || c = '~' || c = '*' || c = '(' || c = ')' ||
        c = '\'' then
      [c]
    else
      (utf8Bytes c).flatMap pctByte

/-- Remove the leftmost match of `Pasal\s+` (case-insensitive), as in
`pasal.replace(/Pasal\s+/i, '')`. -/
def removeFirstPasalWs : List Char → List Char
  | [] => []
  | c :: cs =>
    match stripCI pasalPat (c :: cs) with
    | some r1 =>
      match r1.takeWhile isJsWs with
      | [] => c :: removeFirstPasalWs cs
      | _ :: _ => r1.dropWhile isJsWs
    | none => c :: removeFirstPasalWs cs

/-- Remove the leftmost case-insensitive occurrence of the (lower-case)
pattern, as in `.replace(/KUHP/i, '')`. -/
def removeFirstCI (pat : List Char) : List Char → List Char
  | [] => []
  | c :: cs =>
    match stripCI pat (c :: cs) with
    | some rest => rest
    | none => c :: removeFirstCI pat cs

/-- `pasal.replace(/Pasal\s+/i, '').replace(/KUHP/i, '').trim()` — the
"bare number" the verifier derives from a citation key. -/
def pasalOnly (pasal : List Char) : List Char :=
  trimL (removeFirstCI kuhpPat (removeFirstPasalWs pasal))

/-- `needle` occurs at the start of `hay`. -/
def startsWithB : List Char → List Char → Bool
  | [], _ => true
  | _ :: _, [] => false
  | n :: ns, h :: hs => n = h && startsWithB ns hs

/-- JS `String.prototype.includes`. -/
def containsB (needle : List Char) : List Char → Bool
  | [] => needle.isEmpty
  | h :: hs => startsWithB needle (h :: hs) || containsB needle hs

/-- `html.toLowerCase()`. -/
def lowerL (l : List Char) : List Char := l.map lowc

/-- The BPK / MA match rule:
`html && html.toLowerCase().includes('pasal') && html.toLowerCase().includes(pasalOnly)`. -/
def htmlMatch (html pOnly : List Char) : Bool :=
  !html.isEmpty && containsB "pasal".data (lowerL html) && containsB pOnly (lowerL html)

/-- `pasal.replace('Pasal ','')` — plain (case-sensitive, first
occurrence) string replacement. -/
def removeFirstPlain (pat : List Char) : List Char → List Char
  | [] => []
  | c :: cs =>
    if startsWithB pat (c :: cs) then (c :: cs).drop pat.length
    else c :: removeFirstPlain pat cs

/-- `pasal.replace('Pasal ','').split(' ')[0]` — the number the Google
fallback greps for. -/
def googleNum (pasal : List Char) : List Char :=
  (removeFirstPlain "Pasal ".data pasal).takeWhile (· ≠ ' ')

/-- The Google match rule:
`html && lower.includes('kuhp') && lower.includes(number)`. -/
def googleMatchB (html pasal : List Char) : Bool :=
  !html.isEmpty && containsB "kuhp".data (lowerL html) && containsB (googleNum pasal) (lowerL html)

/-- An outbound probe, identified by endpoint and full URL. -/
inductive Probe where
  | bpk : List Char → Probe
  | ma : List Char → Probe
  | google : List Char → Probe
deriving DecidableEq, Repr

/-- The network oracle: `none` models any transport failure. -/
abbrev Env := Probe → Option (List Char)

structure SourceHit where
  site : List Char
  url : List Char
  snippet : List Char
deriving DecidableEq, Repr

structure VerifyResult where
  pasal : List Char
  verified : Bool
  sources : List SourceHit
deriving DecidableEq, Repr

/-- Outcome of one provider stage: hit flag, sources pushed, probes issued. -/
structure StageOut where
  hit : Bool
  sources : List SourceHit
  probes : List Probe
deriving DecidableEq, Repr

def bpkUrl (q : List Char) : List Char :=
  "https://peraturan.bpk.go.id/Search/Peraturan?Query=".data ++ encodeURIComponent q

def maUrl (q : List Char) : List Char :=
  "https://putusan.mahkamahagung.go.id/search?q=".data ++ encodeURIComponent q

def googleUrl (pasal : List Char) : List Char :=
  "https://www.google.com/search?q=".data ++ encodeURIComponent (pasal ++ " KUHP".data)

/-- The three BPK query variants built from the bare number. -/
def bpkQueries (pOnly : List Char) : List (List Char) :=
  ["KUHP Pasal ".data ++ pOnly,
   "Pasal ".data ++ pOnly ++ " KUHP".data,
   "Kitab Undang Undang Hukum Pidana Pasal ".data ++ pOnly]

def bpkProbeOf (q : List Char) : Probe := .bpk (bpkUrl q)

def mkBpkHit (url : List Char) : SourceHit :=
  ⟨"peraturan.bpk.go.id".data, url, "Found on BPK search results (HTML match)".data⟩

def mkMaHit (url : List Char) : SourceHit :=
  ⟨"putusan.mahkamahagung.go.id".data, url, "Found in MA search results (HTML match)".data⟩

def mkGoogleHit (url : List Char) : SourceHit :=
  ⟨"google_search".data, url, "Found with google search (HTML match)".data⟩

/-- Whether one BPK probe would match (used to state short-circuiting). -/
def bpkMatches (env : Env) (pOnly q : List Char) : Bool :=
  match env (bpkProbeOf q) with
  | some html => htmlMatch html pOnly
  | none => false

/-- The `for (const q of queries)` loop over the BPK search: first hit
wins and stops the loop; errors and non-matches fall through to the next
variant. -/
def bpkStage (env : Env) (pOnly : List Char) : List (List Char) → StageOut
  | [] => ⟨false, [], []⟩
  | q :: qs =>
    let url := bpkUrl q
    match env (.bpk url) with
    | some html =>
      if htmlMatch html pOnly then ⟨true, [mkBpkHit url], [.bpk url]⟩
      else
        let s := bpkStage env pOnly qs
        ⟨s.hit, s.sources, .bpk url :: s.probes⟩
    | none =>
      let s := bpkStage env pOnly qs
      ⟨s.hit, s.sources, .bpk url :: s.probes⟩

/-- The URL of the single Mahkamah Agung probe for a bare number. -/
def maQueryUrl (pOnly : List Char) : List Char :=
  maUrl ("Pasal ".data ++ pOnly)

/-- The single Mahkamah Agung probe. -/
def maStage (env : Env) (pOnly : List Char) : StageOut :=
  let url := maQueryUrl pOnly
  match env (.ma url) with
  | some html =>
    if htmlMatch html pOnly then ⟨true, [mkMaHit url], [.ma url]⟩
    else ⟨false, [], [.ma url]⟩
  | none => ⟨false, [], [.ma url]⟩

/-- The single Google fallback probe (reached whenever the first two
stages left the result unverified; the code contains no feature flag). -/
def googleStage (env : Env) (pasal : List Char) : StageOut :=
  let url := googleUrl pasal
  match env (.google url) with
  | some html =>
    if googleMatchB html pasal then ⟨true, [mkGoogleHit url], [.google url]⟩
    else ⟨false, [], [.google url]⟩
  | none => ⟨false, [], [.google url]⟩

/-- `verifyPasalOnline`, plus the list of probes it issued.  The function
is total: every probe failure is absorbed, matching the `try`/`catch`
blocks of the source. -/
def verifyCore (env : Env) (pasal : List Char) : VerifyResult × List Probe :=
  let pOnly := pasalOnly pasal
  let st1 := bpkStage env pOnly (bpkQueries pOnly)
  if st1.hit then (⟨pasal, true, st1.sources⟩, st1.probes)
  else
    let st2 := maStage env pOnly
    if st2.hit then (⟨pasal, true, st1.sources ++ st2.sources⟩, st1.probes ++ st2.probes)
    else
      let st3 := googleStage env pasal
      (⟨pasal, st3.hit, st1.sources ++ st2.sources ++ st3.sources⟩,
        st1.probes ++ st2.probes ++ st3.probes)

def verifyPasalOnline (env : Env) (pasal : List Char) : VerifyResult :=
  (verifyCore env pasal).1

def verifyTrace (env : Env) (pasal : List Char) : List Probe :=
  (verifyCore env pasal).2

/-- The Mahkamah Agung probe's match outcome, as a predicate on the oracle. -/
def maMatches (env : Env) (pasal : List Char) : Bool :=
  match env (.ma (maQueryUrl (pasalOnly pasal))) with
  | some html => htmlMatch html (pasalOnly pasal)
  | none => false

/-- The Google probe's match outcome, as a predicate on the oracle. -/
def googleMatches (env : Env) (pasal : List Char) : Bool :=
  match env (.google (googleUrl pasal)) with
  | some html => googleMatchB html pasal
  | none => false

/-! ## The orchestrator

`/api/analyze` runs `pasals.map(p => verifyPasalOnline(p))` and awaits
`Promise.all`.  Since each verification settles deterministically from
the network oracle, `Promise.all`'s positional aggregation over
non-rejecting promises is `List.map`; its behaviour over a possibly
rejecting verifier (a rejected promise rejects the whole batch with that
error) is `promiseAllE`. -/

def verifyAll (env : Env) (keys : List (List Char)) : List VerifyResult :=
  keys.map fun k => verifyPasalOnline env k

/-- `Promise.all` over possibly-rejecting verifications: the first
rejection rejects the whole batch; there is no per-key isolation in the
source. -/
def promiseAllE (f : List Char → Except String VerifyResult) :
    List (List Char) → Except String (List VerifyResult)
  | [] => .ok []
  | k :: ks =>
    match f k with
    | .error e => .error e
    | .ok r =>
      match promiseAllE f ks with
      | .error e => .error e
      | .ok rs => .ok (r :: rs)

/-- An oracle on which every probe fails with a transport error. -/
def envNone : Env := fun _ => none

/-- An oracle on which providers 1 and 2 raise transport errors while the
Google fallback returns a body matching the rule for `Pasal 340 KUHP`. -/
def envGoogleOnly : Env := fun p =>
  match p with
  | .google _ => some "kuhp pasal 340".data
  | _ => none

/-- A verifier that rejects on the key `Pasal 2 KUHP` and otherwise
resolves like the real one over `envNone`. -/
def throwingVerifier : List Char → Except String VerifyResult := fun k =>
  if k = "Pasal 2 KUHP".data then .error "boom"
  else .ok (verifyPasalOnline envNone k)

/-- An oracle on which every BPK probe returns a matching body and the
other providers raise transport errors. -/
def envBpk : Env := fun p =>
  match p with
  | .bpk _ => some "pasal 340".data
  | _ => none

def isGoogleProbe : Probe → Bool
  | .google _ => true
  | _ => false

/-- A text whose only citation sits entirely beyond position `N`. -/
def padText (N : Nat) : List Char := List.replicate N ' ' ++ "Pasal 1".data

/-! ## Basic lemmas about the de-duplicating accumulator -/

lemma mem_dedupAppend {k : List Char} :
    ∀ (l acc : List (List Char)), k ∈ dedupAppend acc l ↔ k ∈ acc ∨ k ∈ l := by
  intro l
  induction l with
  | nil => intro acc; simp [dedupAppend]
  | cons a as ih =>
    intro acc
    by_cases h : a ∈ acc
    · simp only [dedupAppend, if_pos h, ih, List.mem_cons]
      constructor
      · rintro (hk | hk)
        · exact Or.inl hk
        · exact Or.inr (Or.inr hk)
      · rintro (hk | rfl | hk)
        · exact Or.inl hk
        · exact Or.inl h
        · exact Or.inr hk
    · simp only [dedupAppend, if_neg h, ih, List.mem_append, List.mem_singleton, List.mem_cons]
      tauto

lemma dedupAppend_nodup :
    ∀ (l acc : List (List Char)), acc.Nodup → (dedupAppend acc l).Nodup := by
  intro l
  induction l with
  | nil => intro acc h; exact h
  | cons a as ih =>
    intro acc h
    by_cases hm : a ∈ acc
    · simp only [dedupAppend, if_pos hm]
      exact ih acc h
    · simp only [dedupAppend, if_neg hm]
      refine ih (acc ++ [a]) ?_
      rw [List.nodup_append]
      exact ⟨h, List.nodup_singleton a, by
        intro x hx hy
        rw [List.mem_singleton] at hy
        subst hy
        exact hm hx⟩

lemma dedupAppend_decomp :
    ∀ (l acc : List (List Char)),
      ∃ ext, dedupAppend acc l = acc ++ ext ∧ ∀ k ∈ ext, k ∈ l ∧ k ∉ acc := by
  intro l
  induction l with
  | nil => intro acc; exact ⟨[], by simp [dedupAppend]⟩
  | cons a as ih =>
    intro acc
    by_cases hm : a ∈ acc
    · obtain ⟨ext, he, hp⟩ := ih acc
      refine ⟨ext, by simpa only [dedupAppend, if_pos hm] using he, ?_⟩
      intro k hk
      exact ⟨List.mem_cons_of_mem a (hp k hk).1, (hp k hk).2⟩
    · obtain ⟨ext, he, hp⟩ := ih (acc ++ [a])
      refine ⟨a :: ext, ?_, ?_⟩
      · rw [dedupAppend, if_neg hm, he, List.append_assoc]
        rfl
      · intro k hk
        rcases List.mem_cons.mp hk with rfl | hk
        · exact ⟨List.mem_cons_self _ _, hm⟩
        · have := hp k hk
          exact ⟨List.mem_cons_of_mem a this.1,
            fun hka => this.2 (List.mem_append.mpr (Or.inl hka))⟩

/-! ## Lemmas about the verifier's stages -/

lemma verifyPasalOnline_pasal (env : Env) (p : List Char) :
    (verifyPasalOnline env p).pasal = p := by
  unfold verifyPasalOnline verifyCore
  dsimp only
  split
  · rfl
  · split
    · rfl
    · rfl

lemma bpkStage_of_all_fail (env : Env) (pOnly : List Char) :
    ∀ qs, qs.all (fun q => !bpkMatches env pOnly q) = true →
      bpkStage env pOnly qs = ⟨false, [], qs.map bpkProbeOf⟩ := by
  intro qs
  induction qs with
  | nil => intro _; rfl
  | cons a as ih =>
    intro h
    rw [List.all_cons, Bool.and_eq_true] at h
    have ha : bpkMatches env pOnly a = false := by
      simpa using h.1
    have hrec := ih h.2
    unfold bpkStage
    cases henv : env (.bpk (bpkUrl a)) with
    | none => simp [henv, hrec, bpkProbeOf]
    | some html =>
      simp only [bpkMatches, bpkProbeOf, henv] at ha
      simp [henv, ha, hrec, bpkProbeOf]

lemma bpkStage_of_any_match (env : Env) (pOnly : List Char) :
    ∀ qs, qs.any (bpkMatches env pOnly) = true →
      bpkStage env pOnly qs =
        ⟨true,
         [mkBpkHit (bpkUrl (qs.getD (qs.findIdx (bpkMatches env pOnly)) []))],
         (qs.take (qs.findIdx (bpkMatches env pOnly) + 1)).map bpkProbeOf⟩ := by
  intro qs
  induction qs with
  | nil => intro h; simp at h
  | cons a as ih =>
    intro h
    cases ha : bpkMatches env pOnly a with
    | true =>
      have hidx : (a :: as).findIdx (bpkMatches env pOnly) = 0 := by
        simp [List.findIdx_cons, ha]
      cases henv : env (.bpk (bpkUrl a)) with
      | none =>
        simp only [bpkMatches, bpkProbeOf, henv] at ha
        simp at ha
      | some html =>
        simp only [bpkMatches, bpkProbeOf, henv] at ha
        unfold bpkStage
        simp [henv, ha, hidx, bpkProbeOf]
    | false =>
      have has : as.any (bpkMatches env pOnly) = true := by
        rw [List.any_cons, ha, Bool.false_or] at h
        exact h
      have hidx : (a :: as).findIdx (bpkMatches env pOnly) =
          as.findIdx (bpkMatches env pOnly) + 1 := by
        simp [List.findIdx_cons, ha]
      have hrec := ih has
      unfold bpkStage
      cases henv : env (.bpk (bpkUrl a)) with
      | none => simp [henv, hrec, hidx, bpkProbeOf]
      | some html =>
        simp only [bpkMatches, bpkProbeOf, henv] at ha
        simp [henv, ha, hrec, hidx, bpkProbeOf]

lemma bpkStage_shape (env : Env) (pOnly : List Char) :
    ∀ qs, (bpkStage env pOnly qs).sources.length ≤ 1 ∧
      ((bpkStage env pOnly qs).hit = false → (bpkStage env pOnly qs).sources = []) := by
  intro qs
  induction qs with
  | nil => exact ⟨by simp [bpkStage], fun _ => rfl⟩
  | cons a as ih =>
    unfold bpkStage
    cases henv : env (.bpk (bpkUrl a)) with
    | none =>
      simp only [henv]
      simpa using ih
    | some html =>
      simp only [henv]
      by_cases hm : htmlMatch html pOnly
      · simp [hm]
      · simpa [hm] using ih

lemma maStage_shape (env : Env) (pOnly : List Char) :
    (maStage env pOnly).sources.length ≤ 1 ∧
      ((maStage env pOnly).hit = false → (maStage env pOnly).sources = []) := by
  unfold maStage
  dsimp only
  split
  · split
    · simp
    · simp
  · simp

lemma googleStage_shape (env : Env) (pasal : List Char) :
    (googleStage env pasal).sources.length ≤ 1 ∧
      ((googleStage env pasal).hit = false → (googleStage env pasal).sources = []) := by
  unfold googleStage
  dsimp only
  split
  · split
    · simp
    · simp
  · simp

lemma maStage_of_no_match (env : Env) (pasal : List Char)
    (h : maMatches env pasal = false) :
    maStage env (pasalOnly pasal) = ⟨false, [], [.ma (maQueryUrl (pasalOnly pasal))]⟩ := by
  unfold maMatches at h
  unfold maStage
  dsimp only
  cases henv : env (.ma (maQueryUrl (pasalOnly pasal))) with
  | none => simp [henv]
  | some html =>
    rw [henv] at h
    dsimp only at h
    simp [henv, h]

lemma googleStage_of_no_match (env : Env) (pasal : List Char)
    (h : googleMatches env pasal = false) :
    googleStage env pasal = ⟨false, [], [.google (googleUrl pasal)]⟩ := by
  unfold googleMatches at h
  unfold googleStage
  dsimp only
  cases henv : env (.google (googleUrl pasal)) with
  | none => simp [henv]
  | some html =>
    rw [henv] at h
    dsimp only at h
    simp [henv, h]

lemma verifyCore_sources_le_one (env : Env) (pasal : List Char) :
    (verifyPasalOnline env pasal).sources.length ≤ 1 := by
  unfold verifyPasalOnline verifyCore
  dsimp only
  split
  · exact (bpkStage_shape env (pasalOnly pasal) (bpkQueries (pasalOnly pasal))).1
  · rename_i h1
    rw [Bool.not_eq_true] at h1
    have hs1 := (bpkStage_shape env (pasalOnly pasal) (bpkQueries (pasalOnly pasal))).2 h1
    split
    · simpa [hs1] using (maStage_shape env (pasalOnly pasal)).1
    · rename_i h2
      rw [Bool.not_eq_true] at h2
      have hs2 := (maStage_shape env (pasalOnly pasal)).2 h2
      simpa [hs1, hs2] using (googleStage_shape env pasal).1



/-! ## Claims -/

/-- C1: on the input text `"Menurut Pasal 340 KUHP dan Pasal 55, ..."`, the
extractor returns exactly `["Pasal 340 KUHP", "Pasal 55 KUHP"]`: the first
key keeps its explicit code, and the second key, which has no trailing code
token, gets the default code `KUHP`. -/
theorem C1_extract_end_to_end :
    extractPasalReferences "Menurut Pasal 340 KUHP dan Pasal 55, ..." =
      ["Pasal 340 KUHP", "Pasal 55 KUHP"] := by decide

/-- C2 (code bug): the source contains no `ENABLE_FALLBACK_SEARCH` feature
flag at all; whenever providers 1 and 2 fail (here: all transport errors,
the oracle `envNone`), the verifier issues the Google fallback probe
unconditionally — contradicting its own comment "disabled by default for
privacy" and the spec's requirement that the third provider be
feature-flagged off by default. -/
theorem C2_google_probe_not_feature_flagged :
    (verifyTrace envNone ("Pasal 340 KUHP".data)).any isGoogleProbe = true := by decide

/-- C4 counterexample: it is not the case that the batch always resolves
with one result per key — a verifier rejection (modelled by
`throwingVerifier` on the middle key) rejects the whole `Promise.all`
batch, so no result sequence is produced at all. -/
theorem C4_counterexample_batch_rejects :
    ¬ ∀ (f : List Char → Except String VerifyResult) (keys : List (List Char)),
        ∃ rs, promiseAllE f keys = .ok rs ∧ rs.length = keys.length := by
  intro h
  obtain ⟨rs, hrs, -⟩ :=
    h throwingVerifier ["Pasal 1 KUHP".data, "Pasal 2 KUHP".data, "Pasal 3 KUHP".data]
  have hev : promiseAllE throwingVerifier
      ["Pasal 1 KUHP".data, "Pasal 2 KUHP".data, "Pasal 3 KUHP".data] =
      .error "boom" := rfl
  rw [hev] at hrs
  exact Except.noConfusion hrs

/-- C4 (amended): if the verification of any key in the batch raises, the
whole `Promise.all` batch rejects with some error — the failing key's entry
is not coerced to `verified = false`, sibling results are discarded, and the
surrounding request handler turns the rejection into a 500 response. -/
theorem C4_rejection_propagates (f : List Char → Except String VerifyResult)
    (keys : List (List Char)) (k : List Char) (e : String)
    (hk : k ∈ keys) (hf : f k = .error e) :
    ∃ e', promiseAllE f keys = .error e' := by
  induction keys with
  | nil => cases hk
  | cons a as ih =>
    rcases List.mem_cons.mp hk with rfl | hmem
    · exact ⟨e, by simp only [promiseAllE, hf]⟩
    · cases hfa : f a with
      | error e2 => exact ⟨e2, by simp only [promiseAllE, hfa]⟩
      | ok r =>
        obtain ⟨e', he'⟩ := ih hmem
        exact ⟨e', by simp only [promiseAllE, hfa, he']⟩

/-- Witness for C4 (amended) at a concrete batch and rejecting key. -/
theorem C4_rejection_propagates_witness :
    ∃ e', promiseAllE throwingVerifier
      ["Pasal 1 KUHP".data, "Pasal 2 KUHP".data, "Pasal 3 KUHP".data] = .error e' :=
  C4_rejection_propagates throwingVerifier
    ["Pasal 1 KUHP".data, "Pasal 2 KUHP".data, "Pasal 3 KUHP".data]
    ("Pasal 2 KUHP".data) "boom" (by decide) rfl

/-- C6: for every input text the extracted keys are pairwise distinct
(duplicate mentions collapse), a key is extracted iff some pass produced it,
and the output is the de-duplicated first-pass keys followed by the
second-pass additions that were not already present; on the concrete text
mentioning `Pasal 340 KUHP` three times the key appears exactly once. -/
theorem C6_unique_and_ordered :
    (∀ t : List Char,
      (extractL t).Nodup ∧
      (∀ k, k ∈ extractL t ↔ k ∈ keys1 t ∨ k ∈ keys2 t) ∧
      ∃ adds, extractL t = dedupAppend [] (keys1 t) ++ adds ∧
        ∀ k ∈ adds, k ∈ keys2 t ∧ k ∉ dedupAppend [] (keys1 t)) ∧
    (extractPasalReferences "Pasal 340 KUHP, Pasal 340 KUHP dan Pasal 340 KUHP").count
      "Pasal 340 KUHP" = 1 := by
  constructor
  · intro t
    refine ⟨dedupAppend_nodup _ _ (dedupAppend_nodup _ _ List.nodup_nil), ?_, ?_⟩
    · intro k
      unfold extractL
      rw [mem_dedupAppend, mem_dedupAppend]
      simp
    · exact dedupAppend_decomp (keys2 t) (dedupAppend [] (keys1 t))
  · decide

/-- Witness for C6 at a concrete text. -/
theorem C6_unique_and_ordered_witness :
    (extractL ("Menurut Pasal 340 KUHP dan Pasal 55, ...".data)).Nodup :=
  (C6_unique_and_ordered.1 ("Menurut Pasal 340 KUHP dan Pasal 55, ...".data)).1

/-- C7: every verification result carries at most one source hit; and if
some BPK query variant matches, the result is verified with exactly one
source hit, the probes issued are exactly the BPK variants up to and
including the first matching one, and neither provider 2 nor the Google
fallback is ever contacted. -/
theorem C7_first_hit_short_circuits (env : Env) (pasal : List Char) :
    (verifyPasalOnline env pasal).sources.length ≤ 1 ∧
    ((bpkQueries (pasalOnly pasal)).any (bpkMatches env (pasalOnly pasal)) = true →
      (verifyPasalOnline env pasal).verified = true ∧
      (verifyPasalOnline env pasal).sources.length = 1 ∧
      verifyTrace env pasal =
        ((bpkQueries (pasalOnly pasal)).take
          ((bpkQueries (pasalOnly pasal)).findIdx (bpkMatches env (pasalOnly pasal)) + 1)).map
          bpkProbeOf ∧
      (∀ u, Probe.ma u ∉ verifyTrace env pasal) ∧
      (∀ u, Probe.google u ∉ verifyTrace env pasal)) := by
  refine ⟨verifyCore_sources_le_one env pasal, fun h => ?_⟩
  have hst := bpkStage_of_any_match env (pasalOnly pasal) (bpkQueries (pasalOnly pasal)) h
  unfold verifyPasalOnline verifyTrace verifyCore
  dsimp only
  rw [hst]
  simp [bpkProbeOf]
  refine ⟨?_, ?_⟩
  · intro u hu
    obtain ⟨q, hq1, hq2⟩ := List.mem_map.mp (List.take_subset _ _ hu)
    simp [bpkProbeOf] at hq2
  · intro u hu
    obtain ⟨q, hq1, hq2⟩ := List.mem_map.mp (List.take_subset _ _ hu)
    simp [bpkProbeOf] at hq2

/-- Witness for C7 on an oracle whose BPK search matches. -/
theorem C7_first_hit_short_circuits_witness :
    (verifyPasalOnline envBpk ("Pasal 340 KUHP".data)).verified = true :=
  ((C7_first_hit_short_circuits envBpk ("Pasal 340 KUHP".data)).2 (by decide)).1

/-- C8 counterexample: on an oracle where providers 1 and 2 both raise
transport errors (`envGoogleOnly` answers `none` to every BPK and MA probe)
the result is nonetheless verified, because the always-on Google fallback
matches — refuting the claim that transport errors on providers 1 and 2
force `{verified: false, sources: []}`. -/
theorem C8_counterexample_fallback_overrides :
    (verifyPasalOnline envGoogleOnly ("Pasal 340 KUHP".data)).verified = true ∧
    verifyPasalOnline envGoogleOnly ("Pasal 340 KUHP".data) ≠
      ⟨"Pasal 340 KUHP".data, false, []⟩ := by decide

/-- C8 (amended): the verifier is a total function (every probe failure is
absorbed by the source's `try`/`catch`), and when every probe across all
three stages — the BPK variants, the MA probe and the Google fallback —
errors or fails to match, it returns `{verified: false, sources: []}`. -/
theorem C8_all_probes_fail_unverified (env : Env) (pasal : List Char)
    (h1 : (bpkQueries (pasalOnly pasal)).all
      (fun q => !bpkMatches env (pasalOnly pasal) q) = true)
    (h2 : maMatches env pasal = false)
    (h3 : googleMatches env pasal = false) :
    verifyPasalOnline env pasal = ⟨pasal, false, []⟩ := by
  have hs1 := bpkStage_of_all_fail env (pasalOnly pasal) (bpkQueries (pasalOnly pasal)) h1
  have hs2 := maStage_of_no_match env pasal h2
  have hs3 := googleStage_of_no_match env pasal h3
  unfold verifyPasalOnline verifyCore
  dsimp only
  rw [hs1, hs2, hs3]
  simp

/-- Witness for C8 (amended): with every probe failing by transport error,
the result is unverified with no sources. -/
theorem C8_all_probes_fail_unverified_witness :
    verifyPasalOnline envNone ("Pasal 340 KUHP".data) =
      ⟨"Pasal 340 KUHP".data, false, []⟩ :=
  C8_all_probes_fail_unverified envNone ("Pasal 340 KUHP".data)
    (by decide) (by decide) (by decide)

/-- C9: the batch is order-preserving — one result per input key, and the
i-th result's citation field is the i-th input key (`Promise.all` resolves
positionally, independent of probe completion order). -/
theorem C9_verifyAll_order_preserving (env : Env) (keys : List (List Char)) :
    (verifyAll env keys).length = keys.length ∧
    (verifyAll env keys).map (fun r => r.pasal) = keys := by
  constructor
  · simp [verifyAll]
  · unfold verifyAll
    rw [List.map_map]
    have hcomp : ((fun r : VerifyResult => r.pasal) ∘ fun k => verifyPasalOnline env k) = id := by
      funext k
      exact verifyPasalOnline_pasal env k
    rw [hcomp, List.map_id]

/-! ## Character facts -/

lemma pasalPat_eq : pasalPat = ['p', 'a', 's', 'a', 'l'] := rfl

lemma kuhpPat_eq : kuhpPat = ['k', 'u', 'h', 'p'] := rfl

lemma stripCI_cons_ne {p : Char} {ps : List Char} {c : Char} {cs : List Char}
    (h : lowc c ≠ p) : stripCI (p :: ps) (c :: cs) = none := by
  simp [stripCI, h]

lemma isDigitC_toNat {c : Char} (h : isDigitC c = true) : 48 ≤ c.toNat ∧ c.toNat ≤ 57 := by
  simpa [isDigitC] using h

lemma isDigitC_lowc {c : Char} (h : isDigitC c = true) : lowc c = c := by
  have hb := isDigitC_toNat h
  have hcond : ¬ (65 ≤ c.toNat && c.toNat ≤ 90) = true := by
    simp only [Bool.and_eq_true, decide_eq_true_eq]
    omega
  unfold lowc
  rw [if_neg hcond]

lemma isDigitC_ne {c : Char} (h : isDigitC c = true) (d : Char)
    (hd : isDigitC d = false) : c ≠ d := by
  intro he
  rw [he, hd] at h
  exact Bool.noConfusion h

lemma digit_lowc_ne {c : Char} (h : isDigitC c = true) {d : Char}
    (hd : isDigitC d = false) : lowc c ≠ d := by
  rw [isDigitC_lowc h]
  exact isDigitC_ne h d hd

lemma isJsWs_cases {c : Char} (h : isJsWs c = true) :
    c = ' ' ∨ c = '\t' ∨ c = '\n' ∨ c = '\r' ∨ c = '\x0b' ∨ c = '\x0c' ∨ c = ' ' := by
  simp only [isJsWs, Bool.or_eq_true, decide_eq_true_eq] at h
  tauto

lemma isJsWs_not_digit {c : Char} (h : isJsWs c = true) : isDigitC c = false := by
  rcases isJsWs_cases h with rfl | rfl | rfl | rfl | rfl | rfl | rfl <;> decide

lemma isJsWs_lowc_ne_p {c : Char} (h : isJsWs c = true) : lowc c ≠ 'p' := by
  rcases isJsWs_cases h with rfl | rfl | rfl | rfl | rfl | rfl | rfl <;> decide

lemma isDigitC_not_ws {c : Char} (h : isDigitC c = true) : isJsWs c = false := by
  cases hw : isJsWs c
  · rfl
  · rw [isJsWs_not_digit hw] at h
    exact Bool.noConfusion h

/-! ## No input-length ceiling (C5) -/

lemma stripCI_pasal_cons {c : Char} (cs : List Char) (h : lowc c ≠ 'p') :
    stripCI pasalPat (c :: cs) = none := by
  rw [pasalPat_eq]
  exact stripCI_cons_ne h

lemma matchHead_cons_of_ne {c : Char} (cs : List Char) (h : lowc c ≠ 'p') :
    matchHead (c :: cs) = none := by
  unfold matchHead
  rw [stripCI_pasal_cons cs h]

lemma tryMatch1_cons_of_ne {c : Char} (cs : List Char) (h : lowc c ≠ 'p') :
    tryMatch1 (c :: cs) = none := by
  unfold tryMatch1
  rw [matchHead_cons_of_ne cs h]

lemma scan1_cons_of_ne {c : Char} (l : List Char) (h : lowc c ≠ 'p') :
    scan1 (c :: l) = scan1 l := by
  unfold scan1
  simp only [List.length_cons, scan1F, tryMatch1_cons_of_ne l h]

lemma scan2_cons_of_ne {c : Char} (l : List Char) (h : lowc c ≠ 'p') :
    scan2 (c :: l) = scan2 l := by
  unfold scan2
  simp only [List.length_cons, scan2F, matchHead_cons_of_ne l h]

lemma scan1_replicate_sp (N : Nat) (t : List Char) :
    scan1 (List.replicate N ' ' ++ t) = scan1 t := by
  induction N with
  | zero => simp
  | succ n ih =>
    rw [List.replicate_succ, List.cons_append, scan1_cons_of_ne _ (by decide), ih]

lemma scan2_replicate_sp (N : Nat) (t : List Char) :
    scan2 (List.replicate N ' ' ++ t) = scan2 t := by
  induction N with
  | zero => simp
  | succ n ih =>
    rw [List.replicate_succ, List.cons_append, scan2_cons_of_ne _ (by decide), ih]

lemma extractL_replicate_sp (N : Nat) (t : List Char) :
    extractL (List.replicate N ' ' ++ t) = extractL t := by
  unfold extractL keys1 keys2
  rw [scan1_replicate_sp, scan2_replicate_sp]

lemma extractL_padText (N : Nat) : extractL (padText N) = ["Pasal 1 KUHP".data] := by
  unfold padText
  rw [extractL_replicate_sp]
  decide

lemma extractL_take_padText (N : Nat) : extractL ((padText N).take N) = [] := by
  unfold padText
  rw [List.take_left' (by simp)]
  have h := extractL_replicate_sp N []
  rw [List.append_nil] at h
  rw [h]
  decide

/-- C5 counterexample: for no bound `N` does scanning only the length-`N`
prefix agree with the extractor on every input — the text `padText N`
(`N` blanks followed by `"Pasal 1"`) separates them for every `N`. -/
theorem C5_counterexample_no_ceiling :
    ¬ ∃ N : Nat, ∀ l : List Char, extractL l = extractL (l.take N) := by
  rintro ⟨N, h⟩
  have h1 := h (padText N)
  rw [extractL_padText, extractL_take_padText] at h1
  exact List.noConfusion h1

/-- C5 (amended): the extractor imposes no input-length ceiling: it scans
the entire input, and for every candidate bound `N` there is a text on
which it differs from the scan of the length-`N` prefix. -/
theorem C5_no_ceiling_scans_whole_input (N : Nat) :
    extractL (padText N) ≠ extractL ((padText N).take N) := by
  rw [extractL_padText, extractL_take_padText]
  exact fun h => List.noConfusion h

/-! ## The bare-number derivation (C3) -/

lemma removeFirstPasalWs_pasal_sp (n rest : List Char) (hn : n ≠ [])
    (hd : ∀ c ∈ n, isDigitC c = true) :
    removeFirstPasalWs ("Pasal ".data ++ (n ++ rest)) = n ++ rest := by
  obtain ⟨d, n', rfl⟩ := List.exists_cons_of_ne_nil hn
  have hdd := hd d (List.mem_cons_self d n')
  have hnws : isJsWs d = false := isDigitC_not_ws hdd
  have hstrip : stripCI pasalPat
      ('P' :: 'a' :: 's' :: 'a' :: 'l' :: ' ' :: (d :: (n' ++ rest))) =
      some (' ' :: (d :: (n' ++ rest))) := rfl
  show removeFirstPasalWs
      ('P' :: 'a' :: 's' :: 'a' :: 'l' :: ' ' :: (d :: (n' ++ rest))) = d :: (n' ++ rest)
  rw [removeFirstPasalWs, hstrip]
  have hsp : isJsWs ' ' = true := rfl
  simp [List.takeWhile_cons, List.dropWhile_cons, hnws, hsp]

lemma removeFirstCI_kuhp_digits (n rest : List Char)
    (hd : ∀ c ∈ n, isDigitC c = true) :
    removeFirstCI kuhpPat (n ++ rest) = n ++ removeFirstCI kuhpPat rest := by
  induction n with
  | nil => simp
  | cons d n' ih =>
    have hdd := hd d (List.mem_cons_self d n')
    have hstrip : stripCI kuhpPat (d :: (n' ++ rest)) = none := by
      rw [kuhpPat_eq]
      exact stripCI_cons_ne (digit_lowc_ne hdd (by decide))
    rw [List.cons_append, removeFirstCI, hstrip]
    rw [ih fun c hc => hd c (List.mem_cons_of_mem d hc)]
    rfl

lemma dropWhile_cons_of_not_ws {a : Char} {l : List Char} (h : isJsWs a = false) :
    (a :: l).dropWhile isJsWs = a :: l := by
  simp [List.dropWhile_cons, h]

lemma trimL_eq_self {l : List Char} (h1 : l.dropWhile isJsWs = l)
    (h2 : l.reverse.dropWhile isJsWs = l.reverse) : trimL l = l := by
  unfold trimL
  rw [h1, h2, List.reverse_reverse]

lemma dropWhile_ws_all_digits {n : List Char} (hd : ∀ c ∈ n, isDigitC c = true) :
    n.dropWhile isJsWs = n := by
  cases n with
  | nil => rfl
  | cons d n' => exact dropWhile_cons_of_not_ws (isDigitC_not_ws (hd d (List.mem_cons_self d n')))

lemma trimL_digits_sp (n : List Char) (hn : n ≠ [])
    (hd : ∀ c ∈ n, isDigitC c = true) : trimL (n ++ [' ']) = n := by
  obtain ⟨d, n', rfl⟩ := List.exists_cons_of_ne_nil hn
  unfold trimL
  rw [List.cons_append,
    dropWhile_cons_of_not_ws (isDigitC_not_ws (hd d (List.mem_cons_self d n'))),
    ← List.cons_append, List.reverse_append]
  have h1 : ([' '] : List Char).reverse = [' '] := rfl
  rw [h1, List.singleton_append, List.dropWhile_cons,
    if_pos (by decide : isJsWs ' ' = true),
    dropWhile_ws_all_digits (fun c hc => hd c (List.mem_reverse.mp hc)),
    List.reverse_reverse]

lemma trimL_digits_pref (n s : List Char) (hn : n ≠ [])
    (hd : ∀ c ∈ n, isDigitC c = true)
    (hs : ∃ b bs, s.reverse = b :: bs ∧ isJsWs b = false) :
    trimL (n ++ s) = n ++ s := by
  obtain ⟨d, n', rfl⟩ := List.exists_cons_of_ne_nil hn
  obtain ⟨b, bs, hrev, hb⟩ := hs
  apply trimL_eq_self
  · rw [List.cons_append]
    exact dropWhile_cons_of_not_ws (isDigitC_not_ws (hd d (List.mem_cons_self d n')))
  · rw [List.reverse_append, hrev, List.cons_append]
    exact dropWhile_cons_of_not_ws hb

lemma pasalOnly_kuhp (n : List Char) (hn : n ≠ [])
    (hd : ∀ c ∈ n, isDigitC c = true) :
    pasalOnly ("Pasal ".data ++ (n ++ " KUHP".data)) = n := by
  unfold pasalOnly
  rw [removeFirstPasalWs_pasal_sp n (" KUHP".data) hn hd,
    removeFirstCI_kuhp_digits n (" KUHP".data) hd]
  have h1 : removeFirstCI kuhpPat (" KUHP".data) = [' '] := by decide
  rw [h1]
  exact trimL_digits_sp n hn hd

lemma pasalOnly_kuhap (n : List Char) (hn : n ≠ [])
    (hd : ∀ c ∈ n, isDigitC c = true) :
    pasalOnly ("Pasal ".data ++ (n ++ " KUHAP".data)) = n ++ " KUHAP".data := by
  unfold pasalOnly
  rw [removeFirstPasalWs_pasal_sp n (" KUHAP".data) hn hd,
    removeFirstCI_kuhp_digits n (" KUHAP".data) hd]
  have h1 : removeFirstCI kuhpPat (" KUHAP".data) = " KUHAP".data := by decide
  rw [h1]
  exact trimL_digits_pref n (" KUHAP".data) hn hd ⟨'P', _, rfl, by decide⟩

lemma pasalOnly_kitab (n : List Char) (hn : n ≠ [])
    (hd : ∀ c ∈ n, isDigitC c = true) :
    pasalOnly ("Pasal ".data ++ (n ++ " Kitab Undang-Undang Hukum Pidana".data)) =
      n ++ " Kitab Undang-Undang Hukum Pidana".data := by
  unfold pasalOnly
  rw [removeFirstPasalWs_pasal_sp n (" Kitab Undang-Undang Hukum Pidana".data) hn hd,
    removeFirstCI_kuhp_digits n (" Kitab Undang-Undang Hukum Pidana".data) hd]
  have h1 : removeFirstCI kuhpPat (" Kitab Undang-Undang Hukum Pidana".data) =
      " Kitab Undang-Undang Hukum Pidana".data := by decide
  rw [h1]
  exact trimL_digits_pref n (" Kitab Undang-Undang Hukum Pidana".data) hn hd
    ⟨'a', _, rfl, by decide⟩

lemma htmlMatch_eq (html n : List Char) :
    htmlMatch html n =
      (containsB "pasal".data (lowerL html) && containsB n (lowerL html)) := by
  cases html with
  | nil =>
    have h1 : containsB "pasal".data (lowerL []) = false := rfl
    simp [htmlMatch, h1]
  | cons a l => simp [htmlMatch]

/-- C3 counterexample: for the key `Pasal 340 KUHAP` the derived "bare
number" is `"340 KUHAP"`, not `"340"` — `replace(/KUHP/i,'')` does not
match inside `KUHAP`, so the code suffix survives. -/
theorem C3_counterexample_kuhap_not_stripped :
    pasalOnly ("Pasal 340 KUHAP".data) ≠ "340".data := by decide

/-- C3 (amended): for keys `Pasal n CODE` with a digit string `n`, the
derived bare statute number is exactly `n` only when `CODE = KUHP`; for
`KUHAP` and the long code name the code suffix survives in the derived
string.  The BPK/MA probe match rule is exactly: the lower-cased body
contains both the literal word `pasal` and the derived string. -/
theorem C3_bare_number_and_match_rule (n : List Char) (hn : n ≠ [])
    (hd : ∀ c ∈ n, isDigitC c = true) :
    pasalOnly ("Pasal ".data ++ (n ++ " KUHP".data)) = n ∧
    pasalOnly ("Pasal ".data ++ (n ++ " KUHAP".data)) = n ++ " KUHAP".data ∧
    pasalOnly ("Pasal ".data ++ (n ++ " Kitab Undang-Undang Hukum Pidana".data)) =
      n ++ " Kitab Undang-Undang Hukum Pidana".data ∧
    ∀ html, htmlMatch html n =
      (containsB "pasal".data (lowerL html) && containsB n (lowerL html)) :=
  ⟨pasalOnly_kuhp n hn hd, pasalOnly_kuhap n hn hd, pasalOnly_kitab n hn hd,
    fun html => htmlMatch_eq html n⟩

/-- Witness for C3 (amended) at `n = "340"`. -/
theorem C3_bare_number_and_match_rule_witness :
    pasalOnly ("Pasal ".data ++ ("340".data ++ " KUHP".data)) = "340".data :=
  (C3_bare_number_and_match_rule ("340".data) (by decide) (by decide)).1

/-! ## Structure of a `Pasal\s+digits` match (towards C10)

The second pass finds every position where `matchHead` succeeds; the key
fact is that a successful match region cannot hide a later match start in
its interior, because every interior character lowers to something other
than `p`. -/

lemma stripCI_some_decomp : ∀ (pat l r : List Char), stripCI pat l = some r →
    ∃ p, l = p ++ r ∧ p.map lowc = pat := by
  intro pat
  induction pat with
  | nil =>
    intro l r h
    simp only [stripCI, Option.some.injEq] at h
    exact ⟨[], by simp [h], rfl⟩
  | cons pc pt ih =>
    intro l r h
    cases l with
    | nil => exact Option.noConfusion h
    | cons c cs =>
      rw [stripCI] at h
      by_cases hc : lowc c = pc
      · rw [if_pos hc] at h
        obtain ⟨p, hp1, hp2⟩ := ih cs r h
        exact ⟨c :: p, by simp [hp1], by simp [hp2, hc]⟩
      · rw [if_neg hc] at h
        exact Option.noConfusion h

lemma stripCIKeep_decomp : ∀ (pat l m rest : List Char),
    stripCIKeep pat l = some (m, rest) → l = m ++ rest := by
  intro pat
  induction pat with
  | nil =>
    intro l m rest h
    simp only [stripCIKeep, Option.some.injEq, Prod.mk.injEq] at h
    simp [← h.1, ← h.2]
  | cons pc pt ih =>
    intro l m rest h
    cases l with
    | nil => exact Option.noConfusion h
    | cons c cs =>
      rw [stripCIKeep] at h
      by_cases hc : lowc c = pc
      · rw [if_pos hc] at h
        cases hrec : stripCIKeep pt cs with
        | none => rw [hrec] at h; exact Option.noConfusion h
        | some pr =>
          obtain ⟨m0, rest0⟩ := pr
          rw [hrec] at h
          simp only [Option.some.injEq, Prod.mk.injEq] at h
          rw [← h.1, ← h.2]
          simpa using ih cs m0 rest0 hrec
      · rw [if_neg hc] at h
        exact Option.noConfusion h

lemma prefix_take_decomp (tw u : List Char) :
    tw ++ u = tw.take 4 ++ (tw ++ u).drop ((tw.take 4).length) := by
  conv_lhs => rw [← List.take_append_drop ((tw.take 4).length) (tw ++ u)]
  congr 1
  rw [List.length_take, List.take_append_eq_append_take]
  have h0 : min 4 tw.length - tw.length = 0 := by omega
  rw [h0, List.take_zero, List.append_nil, List.take_eq_take]
  omega

lemma matchHead_decomp {l ds r : List Char} (h : matchHead l = some (ds, r)) :
    ∃ p ws, l = p ++ ws ++ ds ++ r ∧ p.map lowc = pasalPat ∧ ws ≠ [] ∧
      (∀ c ∈ ws, isJsWs c = true) ∧ ds ≠ [] ∧ (∀ c ∈ ds, isDigitC c = true) := by
  unfold matchHead at h
  cases hs : stripCI pasalPat l with
  | none => rw [hs] at h; exact Option.noConfusion h
  | some r1 =>
    rw [hs] at h
    dsimp only at h
    obtain ⟨p, hp1, hp2⟩ := stripCI_some_decomp pasalPat l r1 hs
    cases htw : r1.takeWhile isJsWs with
    | nil => rw [htw] at h; exact Option.noConfusion h
    | cons w ws' =>
      rw [htw] at h
      dsimp only at h
      cases hds : ((r1.dropWhile isJsWs).takeWhile isDigitC).take 4 with
      | nil => rw [hds] at h; exact Option.noConfusion h
      | cons d ds' =>
        rw [hds] at h
        simp only [Option.some.injEq, Prod.mk.injEq] at h
        obtain ⟨hds_eq, hr_eq⟩ := h
        have hsplit1 : r1.takeWhile isJsWs ++ r1.dropWhile isJsWs = r1 :=
          List.takeWhile_append_dropWhile isJsWs r1
        obtain ⟨u, hu⟩ :=
          (List.takeWhile_prefix isDigitC :
            (r1.dropWhile isJsWs).takeWhile isDigitC <+: r1.dropWhile isJsWs)
        have hsplit2 : r1.dropWhile isJsWs =
            ((r1.dropWhile isJsWs).takeWhile isDigitC).take 4 ++
              (r1.dropWhile isJsWs).drop
                ((((r1.dropWhile isJsWs).takeWhile isDigitC).take 4).length) := by
          have hp := prefix_take_decomp ((r1.dropWhile isJsWs).takeWhile isDigitC) u
          rw [hu] at hp
          exact hp
        refine ⟨p, r1.takeWhile isJsWs, ?_, hp2, by rw [htw]; simp, ?_, ?_, ?_⟩
        · rw [hp1, ← hsplit1, ← hds_eq, ← hr_eq, ← hds]
          conv_lhs => rw [hsplit2]
          simp [List.append_assoc]
        · intro c hc
          exact List.mem_takeWhile_imp hc
        · rw [← hds_eq]; simp
        · intro c hc
          rw [← hds_eq, ← hds] at hc
          have hc2 : c ∈ (r1.dropWhile isJsWs).takeWhile isDigitC :=
            List.take_subset 4 _ hc
          exact List.mem_takeWhile_imp hc2

lemma matchHead_rest_lt {l num r : List Char} (h : matchHead l = some (num, r)) :
    r.length < l.length := by
  obtain ⟨p, ws, hl, hp, hwsne, -, -, -⟩ := matchHead_decomp h
  have hplen : p.length = 5 := by
    have h5 := congrArg List.length hp
    simpa using h5
  have hws0 : 0 < ws.length := List.length_pos.mpr hwsne
  rw [hl]
  simp only [List.length_append]
  omega

lemma suffix_of_suffix_length_le {l s1 s2 : List Char} (h1 : s1 <:+ l) (h2 : s2 <:+ l)
    (hle : s1.length ≤ s2.length) : s1 <:+ s2 := by
  rw [← List.reverse_prefix] at h1 h2 ⊢
  exact List.prefix_of_prefix_length_le h1 h2 (by simpa using hle)

lemma matchHead_head_p {c : Char} {cs num r : List Char}
    (h : matchHead (c :: cs) = some (num, r)) : lowc c = 'p' := by
  by_contra hc
  rw [matchHead_cons_of_ne cs hc] at h
  exact Option.noConfusion h

/-- No character strictly inside the region consumed by a
`Pasal\s+digits` match lowers to `p`, so no new match can start there. -/
lemma matchHead_interior_none {l ds r : List Char} (h : matchHead l = some (ds, r))
    {s : List Char} (hs : s <:+ l) (h1 : r.length < s.length) (h2 : s.length < l.length) :
    matchHead s = none := by
  obtain ⟨p, ws, hl, hp, hwsne, hwsmem, hdsne, hdsmem⟩ := matchHead_decomp h
  have hr_l : r <:+ l := ⟨p ++ ws ++ ds, by rw [hl]⟩
  have hr_s : r <:+ s := suffix_of_suffix_length_le hr_l hs (le_of_lt h1)
  obtain ⟨s2, hs2⟩ := hr_s
  obtain ⟨u, hu⟩ := hs
  have hchunk : u ++ s2 = p ++ ws ++ ds := by
    have he : (u ++ s2) ++ r = (p ++ ws ++ ds) ++ r := by
      rw [List.append_assoc, hs2, hu, hl]
    exact List.append_cancel_right he
  cases hu0 : u with
  | nil =>
    exfalso
    rw [hu0, List.nil_append] at hu
    rw [hu] at h2
    omega
  | cons u0 u' =>
    cases hs20 : s2 with
    | nil =>
      exfalso
      rw [hs20, List.nil_append] at hs2
      rw [← hs2] at h1
      omega
    | cons b s3 =>
      cases hp0 : p with
      | nil =>
        exfalso
        rw [hp0] at hp
        rw [pasalPat_eq] at hp
        exact List.noConfusion hp
      | cons a0 p' =>
        rw [hp0] at hp hchunk
        rw [pasalPat_eq] at hp
        rw [List.map_cons] at hp
        have hp' : p'.map lowc = ['a', 's', 'a', 'l'] := (List.cons.injEq _ _ _ _).mp hp |>.2
        rw [hu0, hs20] at hchunk
        rw [List.cons_append, List.cons_append, List.cons_append,
          List.append_assoc] at hchunk
        have htail : u' ++ (b :: s3) = p' ++ (ws ++ ds) :=
          ((List.cons.injEq _ _ _ _).mp hchunk).2
        have hb_mem : b ∈ p' ++ (ws ++ ds) := by
          have hsfx : (b :: s3) <:+ p' ++ (ws ++ ds) := ⟨u', htail⟩
          exact hsfx.subset (List.mem_cons_self b s3)
        have hlow : lowc b ≠ 'p' := by
          rcases List.mem_append.mp hb_mem with hb | hb
          · have hmm : lowc b ∈ p'.map lowc := List.mem_map_of_mem lowc hb
            rw [hp'] at hmm
            simp only [List.mem_cons, List.not_mem_nil, or_false] at hmm
            rcases hmm with h' | h' | h' | h'
            · rw [h']; decide
            · rw [h']; decide
            · rw [h']; decide
            · rw [h']; decide
          · rcases List.mem_append.mp hb with hb2 | hb2
            · exact isJsWs_lowc_ne_p (hwsmem b hb2)
            · exact digit_lowc_ne (hdsmem b hb2) (by decide)
        rw [← hs2, hs20, List.cons_append]
        exact matchHead_cons_of_ne _ hlow

lemma matchHead_nil : matchHead ([] : List Char) = none := rfl

/-- If an anchored `Pasal\s+digits` match succeeds at some position of `t`
(i.e. on a suffix of `t`), its captured digits appear in the second pass's
scan of `t`. -/
lemma scan2F_mem_of_suffix : ∀ (fuel : Nat) (t : List Char), t.length < fuel →
    ∀ s num r, s <:+ t → matchHead s = some (num, r) → num ∈ scan2F fuel t := by
  intro fuel
  induction fuel with
  | zero => intro t ht; omega
  | succ f ih =>
    intro t ht s num r hs hm
    cases t with
    | nil =>
      rw [List.suffix_nil] at hs
      rw [hs, matchHead_nil] at hm
      exact Option.noConfusion hm
    | cons c tl =>
      by_cases hst : s = c :: tl
      · rw [hst] at hm
        simp only [scan2F, hm]
        exact List.mem_cons_self _ _
      · have hs' : s <:+ tl := by
          rcases List.suffix_cons_iff.mp hs with h' | h'
          · exact absurd h' hst
          · exact h'
        cases hmt : matchHead (c :: tl) with
        | none =>
          rw [show scan2F (f + 1) (c :: tl) = scan2F f tl by simp [scan2F, hmt]]
          have htl : tl.length < f := by
            simp only [List.length_cons] at ht
            omega
          exact ih tl htl s num r hs' hm
        | some pr =>
          obtain ⟨num', r'⟩ := pr
          rw [show scan2F (f + 1) (c :: tl) = num' :: scan2F f r' by simp [scan2F, hmt]]
          by_cases hlen : s.length ≤ r'.length
          · have hr'_t : r' <:+ c :: tl := by
              obtain ⟨p, ws, hl, -, -, -, -, -⟩ := matchHead_decomp hmt
              exact ⟨p ++ ws ++ num', by rw [hl]⟩
            have hsr' : s <:+ r' := suffix_of_suffix_length_le hs hr'_t hlen
            have hr'_lt : r'.length < (c :: tl).length := matchHead_rest_lt hmt
            have hf : r'.length < f := by
              simp only [List.length_cons] at ht hr'_lt
              omega
            exact List.mem_cons_of_mem _ (ih r' hf s num r hsr' hm)
          · push_neg at hlen
            have hs_lt : s.length < (c :: tl).length := by
              have := List.IsSuffix.length_le hs'
              simp only [List.length_cons]
              omega
            have hnone := matchHead_interior_none hmt hs hlen hs_lt
            rw [hnone] at hm
            exact Option.noConfusion hm

lemma scan2F_mem_digits : ∀ (fuel : Nat) (t num : List Char),
    num ∈ scan2F fuel t → ∀ c ∈ num, isDigitC c = true := by
  intro fuel
  induction fuel with
  | zero => intro t num h; simp [scan2F] at h
  | succ f ih =>
    intro t num h
    cases t with
    | nil => simp [scan2F] at h
    | cons c tl =>
      cases hmt : matchHead (c :: tl) with
      | none =>
        rw [show scan2F (f + 1) (c :: tl) = scan2F f tl by simp [scan2F, hmt]] at h
        exact ih tl num h
      | some pr =>
        obtain ⟨num', r'⟩ := pr
        rw [show scan2F (f + 1) (c :: tl) = num' :: scan2F f r' by simp [scan2F, hmt]] at h
        rcases List.mem_cons.mp h with rfl | h'
        · obtain ⟨-, -, -, -, -, -, -, hdig⟩ := matchHead_decomp hmt
          exact hdig
        · exact ih r' num h'

/-! ## From a first-pass match back to its position (towards C10) -/

lemma stripCI_suffix {pat l r : List Char} (h : stripCI pat l = some r) : r <:+ l := by
  obtain ⟨p, hp, -⟩ := stripCI_some_decomp pat l r h
  exact ⟨p, hp.symm⟩

lemma skipParen_suffix (l : List Char) : skipParen l <:+ l := by
  unfold skipParen
  split
  · exact List.suffix_cons _ _
  · exact List.suffix_refl _

lemma ayatInner_suffix {l r2 : List Char} (h : ayatInner l = some r2) : r2 <:+ l := by
  unfold ayatInner at h
  cases hs : stripCI "ayat".data l with
  | none => rw [hs] at h; exact Option.noConfusion h
  | some r1 =>
    rw [hs] at h
    dsimp only at h
    cases htw : (skipParen (r1.dropWhile isJsWs)).takeWhile isAyatClass with
    | nil => rw [htw] at h; exact Option.noConfusion h
    | cons a cls' =>
      rw [htw] at h
      simp only [Option.some.injEq] at h
      rw [← h]
      exact ((List.drop_suffix _ _).trans
        ((skipParen_suffix _).trans (List.dropWhile_suffix isJsWs))).trans
        (stripCI_suffix hs)

lemma ayatStarF_suffix : ∀ (fuel : Nat) (l : List Char), ayatStarF fuel l <:+ l := by
  intro fuel
  induction fuel with
  | zero => intro l; exact List.suffix_refl l
  | succ f ih =>
    intro l
    simp only [ayatStarF]
    cases hai : ayatInner (l.dropWhile isJsWs) with
    | none => exact List.dropWhile_suffix isJsWs
    | some r2 =>
      exact ((ih r2).trans (ayatInner_suffix hai)).trans (List.dropWhile_suffix isJsWs)

lemma stripCIKeep_suffix {pat l m rest : List Char}
    (h : stripCIKeep pat l = some (m, rest)) : rest <:+ l :=
  ⟨m, (stripCIKeep_decomp pat l m rest h).symm⟩

lemma stripSuffixTok_suffix {l sfx rest : List Char}
    (h : stripSuffixTok l = some (sfx, rest)) : rest <:+ l := by
  unfold stripSuffixTok at h
  cases h1 : stripCIKeep kuhpPat l with
  | some pr =>
    obtain ⟨m, r⟩ := pr
    rw [h1] at h
    simp only [Option.some.injEq, Prod.mk.injEq] at h
    rw [← h.2]
    exact stripCIKeep_suffix h1
  | none =>
    rw [h1] at h
    dsimp only at h
    cases h2 : stripCIKeep "kuhap".data l with
    | some pr =>
      obtain ⟨m, r⟩ := pr
      rw [h2] at h
      simp only [Option.some.injEq, Prod.mk.injEq] at h
      rw [← h.2]
      exact stripCIKeep_suffix h2
    | none =>
      rw [h2] at h
      dsimp only at h
      exact stripCIKeep_suffix h

lemma tryMatch1_inv {l num sfx rest : List Char}
    (h : tryMatch1 l = some ((num, sfx), rest)) :
    ∃ r, matchHead l = some (num, r) ∧ rest <:+ r := by
  unfold tryMatch1 at h
  cases hm : matchHead l with
  | none => rw [hm] at h; exact Option.noConfusion h
  | some pr =>
    obtain ⟨num0, r⟩ := pr
    rw [hm] at h
    dsimp only at h
    cases hst : stripSuffixTok (ayatStarF (r.length + 1) r) with
    | some pr2 =>
      obtain ⟨sfx0, rest0⟩ := pr2
      rw [hst] at h
      simp only [Option.some.injEq, Prod.mk.injEq] at h
      refine ⟨r, ?_, ?_⟩
      · rw [h.1.1]
      · rw [← h.2]
        exact (stripSuffixTok_suffix hst).trans (ayatStarF_suffix _ r)
    | none =>
      rw [hst] at h
      simp only [Option.some.injEq, Prod.mk.injEq] at h
      refine ⟨r, ?_, ?_⟩
      · rw [h.1.1]
      · rw [← h.2]
        exact ayatStarF_suffix _ r

lemma tryMatch1_rest {l num sfx rest : List Char}
    (h : tryMatch1 l = some ((num, sfx), rest)) :
    rest <:+ l ∧ rest.length < l.length := by
  obtain ⟨r, hm, hsub⟩ := tryMatch1_inv h
  have hr_l : r <:+ l := by
    obtain ⟨p, ws, hl, -, -, -, -, -⟩ := matchHead_decomp hm
    exact ⟨p ++ ws ++ num, by rw [hl]⟩
  exact ⟨hsub.trans hr_l,
    lt_of_le_of_lt (List.IsSuffix.length_le hsub) (matchHead_rest_lt hm)⟩

/-- Every first-pass match was found at some position of the text: a
suffix on which the anchored pattern succeeds. -/
lemma scan1F_mem_suffix : ∀ (fuel : Nat) (t : List Char), t.length < fuel →
    ∀ x, x ∈ scan1F fuel t →
      ∃ s rest, s <:+ t ∧ tryMatch1 s = some (x, rest) := by
  intro fuel
  induction fuel with
  | zero => intro t ht; omega
  | succ f ih =>
    intro t ht x hx
    cases t with
    | nil => simp [scan1F] at hx
    | cons c tl =>
      cases hmt : tryMatch1 (c :: tl) with
      | none =>
        rw [show scan1F (f + 1) (c :: tl) = scan1F f tl by simp [scan1F, hmt]] at hx
        have htl : tl.length < f := by
          simp only [List.length_cons] at ht
          omega
        obtain ⟨s, rest, hsfx, hmm⟩ := ih tl htl x hx
        exact ⟨s, rest, hsfx.trans (List.suffix_cons c tl), hmm⟩
      | some pr =>
        obtain ⟨ns, rest0⟩ := pr
        rw [show scan1F (f + 1) (c :: tl) = ns :: scan1F f rest0 by simp [scan1F, hmt]] at hx
        rcases List.mem_cons.mp hx with rfl | hx'
        · exact ⟨c :: tl, rest0, List.suffix_refl _, hmt⟩
        · obtain ⟨num0, sfx0⟩ := ns
          obtain ⟨hrs, hrl⟩ := tryMatch1_rest hmt
          have hf : rest0.length < f := by
            simp only [List.length_cons] at ht hrl
            omega
          obtain ⟨s, rest, hsfx, hmm⟩ := ih rest0 hf x hx'
          exact ⟨s, rest, hsfx.trans hrs, hmm⟩

/-! ## Inverting the produced keys (towards C10) -/

lemma takeWhile_digits_append {n : List Char} (hd : ∀ c ∈ n, isDigitC c = true)
    {b : Char} (hb : isDigitC b = false) (s : List Char) :
    (n ++ b :: s).takeWhile isDigitC = n := by
  induction n with
  | nil => simp [List.takeWhile_cons, hb]
  | cons d n' ih =>
    rw [List.cons_append, List.takeWhile_cons, if_pos (hd d (List.mem_cons_self d n'))]
    rw [ih fun c hc => hd c (List.mem_cons_of_mem d hc)]

lemma dropWhile_ws_idem (l : List Char) :
    (l.dropWhile isJsWs).dropWhile isJsWs = l.dropWhile isJsWs := by
  induction l with
  | nil => rfl
  | cons a t ih =>
    rw [List.dropWhile_cons]
    by_cases h : isJsWs a = true
    · rw [if_pos h]; exact ih
    · rw [if_neg h, List.dropWhile_cons, if_neg h]

lemma dropWhile_fix_head {b : Char} {bs : List Char}
    (h : (b :: bs).dropWhile isJsWs = b :: bs) : isJsWs b = false := by
  by_contra hb
  rw [Bool.not_eq_false] at hb
  rw [List.dropWhile_cons, if_pos hb] at h
  have hlen := congrArg List.length h
  have hle : (bs.dropWhile isJsWs).length ≤ bs.length :=
    List.IsSuffix.length_le (List.dropWhile_suffix isJsWs)
  simp only [List.length_cons] at hlen
  omega

lemma trimL_rev_fix (l : List Char) :
    (trimL l).reverse.dropWhile isJsWs = (trimL l).reverse := by
  unfold trimL
  rw [List.reverse_reverse]
  exact dropWhile_ws_idem _

lemma mkKey2_ne_kuhap {num : List Char} (hd : ∀ c ∈ num, isDigitC c = true) :
    mkKey2 num ≠ "Pasal 340 KUHAP".data := by
  intro he
  unfold mkKey2 at he
  rw [List.append_assoc] at he
  have hsplit : ("Pasal 340 KUHAP".data : List Char) =
      "Pasal ".data ++ "340 KUHAP".data := rfl
  rw [hsplit] at he
  have he2 : num ++ " KUHP".data = "340 KUHAP".data := List.append_cancel_left he
  have hexp : (" KUHP".data : List Char) = ' ' :: "KUHP".data := rfl
  rw [hexp] at he2
  have hnum : num = "340".data := by
    have := congrArg (List.takeWhile isDigitC) he2
    rw [takeWhile_digits_append hd (by decide) _] at this
    rw [this]
    decide
  rw [hnum] at he2
  exact absurd he2 (by decide)

lemma mkKey1_eq_kuhap {num sfx : List Char} (hd : ∀ c ∈ num, isDigitC c = true)
    (he : mkKey1 num sfx = "Pasal 340 KUHAP".data) : num = "340".data := by
  unfold mkKey1 at he
  dsimp only at he
  have hs2 : ∃ b bs, (if (trimL sfx).isEmpty then "KUHP".data else trimL sfx).reverse =
      b :: bs ∧ isJsWs b = false := by
    by_cases hemp : (trimL sfx).isEmpty
    · rw [if_pos hemp]
      exact ⟨'P', _, rfl, by decide⟩
    · rw [if_neg hemp]
      have hne : trimL sfx ≠ [] := by
        intro h0
        rw [h0] at hemp
        exact hemp rfl
      have hne' : (trimL sfx).reverse ≠ [] := by
        simpa using hne
      obtain ⟨b, bs, hb⟩ := List.exists_cons_of_ne_nil hne'
      refine ⟨b, bs, hb, ?_⟩
      have hfix := trimL_rev_fix sfx
      rw [hb] at hfix
      exact dropWhile_fix_head hfix
  obtain ⟨b, bs, hbrev, hbws⟩ := hs2
  have htrim : trimL ("Pasal ".data ++ num ++ ' ' ::
      (if (trimL sfx).isEmpty then "KUHP".data else trimL sfx)) =
      "Pasal ".data ++ num ++ ' ' ::
      (if (trimL sfx).isEmpty then "KUHP".data else trimL sfx) := by
    apply trimL_eq_self
    · have hexp : "Pasal ".data ++ num ++ ' ' ::
          (if (trimL sfx).isEmpty then "KUHP".data else trimL sfx) =
          'P' :: ("asal ".data ++ num ++ ' ' ::
            (if (trimL sfx).isEmpty then "KUHP".data else trimL sfx)) := rfl
      rw [hexp]
      exact dropWhile_cons_of_not_ws (by decide)
    · rw [List.reverse_append, List.reverse_cons, List.append_assoc, hbrev,
        List.cons_append]
      exact dropWhile_cons_of_not_ws hbws
  rw [htrim] at he
  rw [List.append_assoc] at he
  have hsplit : (['P', 'a', 's', 'a', 'l', ' ', '3', '4', '0', ' ', 'K', 'U', 'H', 'A', 'P'] :
      List Char) = "Pasal ".data ++ "340 KUHAP".data := rfl
  rw [hsplit] at he
  have he2 := List.append_cancel_left he
  have := congrArg (List.takeWhile isDigitC) he2
  rw [takeWhile_digits_append hd (by decide) _] at this
  rw [this]
  decide

/-- Whenever the extractor's output contains the key `Pasal 340 KUHAP`
(necessarily produced by the strict first pass), it also contains the
manufactured key `Pasal 340 KUHP` from the looser second pass. -/
lemma extractL_kuhap_imp_kuhp (t : List Char)
    (h : "Pasal 340 KUHAP".data ∈ extractL t) :
    "Pasal 340 KUHP".data ∈ extractL t := by
  have hmem := (mem_dedupAppend (keys2 t) (dedupAppend [] (keys1 t))).mp h
  have hk1 : "Pasal 340 KUHAP".data ∈ keys1 t := by
    rcases hmem with h1 | h2
    · have := (mem_dedupAppend (keys1 t) []).mp h1
      simpa using this
    · exfalso
      unfold keys2 at h2
      rw [List.mem_map] at h2
      obtain ⟨num, hnum_mem, hnum_eq⟩ := h2
      exact mkKey2_ne_kuhap
        (scan2F_mem_digits (t.length + 1) t num hnum_mem) hnum_eq
  unfold keys1 at hk1
  rw [List.mem_map] at hk1
  obtain ⟨ns, hns_mem, hns_eq⟩ := hk1
  obtain ⟨num, sfx⟩ := ns
  obtain ⟨s, rest, hsfx, hmt⟩ :=
    scan1F_mem_suffix (t.length + 1) t (by omega) (num, sfx) hns_mem
  obtain ⟨r, hmh, -⟩ := tryMatch1_inv hmt
  have hdig : ∀ c ∈ num, isDigitC c = true := by
    obtain ⟨-, -, -, -, -, -, -, hdig⟩ := matchHead_decomp hmh
    exact hdig
  have hnum : num = "340".data := mkKey1_eq_kuhap hdig hns_eq
  rw [hnum] at hmh
  have hscan2 : "340".data ∈ scan2 t :=
    scan2F_mem_of_suffix (t.length + 1) t (by omega) s ("340".data) r hsfx hmh
  have hk2 : "Pasal 340 KUHP".data ∈ keys2 t := by
    unfold keys2
    rw [List.mem_map]
    exact ⟨"340".data, hscan2, by decide⟩
  exact (mem_dedupAppend (keys2 t) (dedupAppend [] (keys1 t))).mpr (Or.inr hk2)

/-- C10 counterexample: containing the text `Pasal 340 KUHAP` is not
enough — in `"Pasal 1 ayat Pasal 340 KUHAP"` the first pass's greedy ayat
sub-clause of the `Pasal 1` match swallows the second `Pasal`, so the
extractor returns only `["Pasal 1 KUHP", "Pasal 340 KUHP"]` and no
`Pasal 340 KUHAP` key at all. -/
theorem C10_counterexample_overlap_shadows :
    ¬ ∀ t : List Char, containsB ("Pasal 340 KUHAP".data) t = true →
        "Pasal 340 KUHAP".data ∈ extractL t ∧ "Pasal 340 KUHP".data ∈ extractL t := by
  intro h
  have h1 := h ("Pasal 1 ayat Pasal 340 KUHAP".data) (by decide)
  have h2 : extractL ("Pasal 1 ayat Pasal 340 KUHAP".data) =
      ["Pasal 1 KUHP".data, "Pasal 340 KUHP".data] := by decide
  rw [h2] at h1
  exact absurd h1.1 (by decide)

/-- C10 (amended): whenever the extractor actually recognises the KUHAP
citation — i.e. the key `Pasal 340 KUHAP` is in its output — the
manufactured `Pasal 340 KUHP` key is in the output as well; in particular
the plain text `"Pasal 340 KUHAP"` yields exactly both keys, in that
order, even though it never mentions that article of the KUHP. -/
theorem C10_kuhap_yields_phantom_kuhp :
    (∀ t : List Char, "Pasal 340 KUHAP".data ∈ extractL t →
      "Pasal 340 KUHP".data ∈ extractL t) ∧
    extractPasalReferences "Pasal 340 KUHAP" = ["Pasal 340 KUHAP", "Pasal 340 KUHP"] := by
  constructor
  · exact extractL_kuhap_imp_kuhp
  · decide

/-- Witness for C10 (amended) at the plain KUHAP text. -/
theorem C10_kuhap_yields_phantom_kuhp_witness :
    "Pasal 340 KUHP".data ∈ extractL ("Pasal 340 KUHAP".data) :=
  C10_kuhap_yields_phantom_kuhp.1 ("Pasal 340 KUHAP".data) (by decide)

end AsGuJu
